import Mathlib

/-!
# Verification of the dx derivatives-analytics valuation core

The repository consists of notebooks exercising the dx library: a Fourier
option-pricing engine for four stochastic models, a Monte Carlo path
simulation engine, and a portfolio aggregation / risk-report engine.  The
library implementation itself is not shipped with the repository (the
notebooks only call `dx.M76_call_value`, `portfolio.get_values`,
`portfolio.get_port_risk`, ...), so the definitions below are modelled
from the specification of the valuation core, faithful to its stated
contracts, and the claimed properties are proved against that model.

All numerics are carried out over `ℚ` so that every definition is
executable and witnesses can be checked by `decide`/`rfl`.
-/

namespace Dx

/-- Modelled from the spec: `MarketState` — immutable snapshot of model
parameters for one risk factor (initial value, volatility, jump
intensity/mean/width, mean-reversion speed, long-run variance, vol-of-vol,
correlation) plus a constant short rate standing for the discount curve
reference.  The concrete `market_environment` container class is not under
`src`; only its constructor calls in the notebooks are. -/
structure MarketState where
  initial_value : ℚ
  volatility : ℚ
  short_rate : ℚ
  lambd : ℚ
  mu : ℚ
  delta : ℚ
  kappa : ℚ
  theta : ℚ
  vol_vol : ℚ
  rho : ℚ
deriving DecidableEq, Repr

/-- Modelled from the spec: validity invariant on `MarketState` — all
volatility/variance parameters nonnegative, mean-reversion speed and
vol-of-vol nonnegative, correlation in [-1, 1], jump intensity and jump
width nonnegative, positive initial value. -/
def ValidMarket (ms : MarketState) : Prop :=
  0 < ms.initial_value ∧ 0 ≤ ms.volatility ∧ 0 ≤ ms.lambd ∧ 0 ≤ ms.delta ∧
    0 ≤ ms.kappa ∧ 0 ≤ ms.theta ∧ 0 ≤ ms.vol_vol ∧ -1 ≤ ms.rho ∧ ms.rho ≤ 1

instance (ms : MarketState) : Decidable (ValidMarket ms) := by
  unfold ValidMarket; infer_instance

/-- Modelled from the spec: `SimulationConfig` — number of paths, random
seed mode (fixed vs. fresh draw), base seed, antithetic-sampling flag and
discretization scheme selector.  The dx valuation-environment class
holding these constants is not under `src`. -/
structure SimulationConfig where
  paths : ℤ
  fixed_seed : Bool
  seed : ℕ
  antithetic : Bool
  euler : Bool
deriving DecidableEq, Repr

/-- Modelled from the spec: error taxonomy of the valuation core
(`InvalidConfig`, `IntegrationDivergence`, `InvalidContract`,
`UnknownRiskFactor`, `SingularCorrelation`). -/
inductive DxError where
  | InvalidConfig
  | IntegrationDivergence
  | InvalidContract
  | UnknownRiskFactor
  | SingularCorrelation
deriving DecidableEq, Repr

/-- Modelled from the spec: `PathSet` — a 2-D array
`[path_index][time_index]` of asset levels, exclusively produced by the
path simulation engine and immutable once produced. -/
structure PathSet where
  levels : List (List ℚ)
deriving DecidableEq, Repr

/-- A linear congruential step, standing in for the pseudo-random number
generator of the simulation engine (the actual sampler is not under
`src`). -/
def lcg (n : ℕ) : ℕ :=
  (1664525 * n + 1013904223) % 4294967296

/-- Modelled from the spec: deterministic standard-normal surrogate draw
for a given (seed, path, step) key.  Per the concurrency contract each
path's random stream is derivable from a reproducible per-path seed
derivation; we model the draw as an integer hash mapped into the
interval [-2, 2] with granularity 1/100. -/
def draw (seed p k : ℕ) : ℚ :=
  ((lcg (seed + 1000003 * p + 7919 * k) % 401 : ℕ) : ℚ) / 100 - 2

/-- Modelled from the spec: one Euler-style level update of the asset
process over a time step `dt` with innovation `z` (the exact per-model
transition kernels are not under `src`; the properties proved below do
not depend on the kernel's analytic form, only on its determinism in
`(state, dt, z)`). -/
def level_step (ms : MarketState) (s dt z : ℚ) : ℚ :=
  s + s * (ms.short_rate * dt + ms.volatility * z * dt)

/-- Generate the successive levels of one path along the remaining grid
points, starting from previous time `tprev`, current level `s`, at step
index `k`, drawing innovations from `z`. -/
def gen_levels (ms : MarketState) (z : ℕ → ℚ) : ℚ → ℚ → ℕ → List ℚ → List ℚ
  | _, _, _, [] => []
  | tprev, s, k, t :: rest =>
      let s' := level_step ms s (t - tprev) (z k)
      s' :: gen_levels ms z t s' (k + 1) rest

/-- One full path over a time grid: the initial value at the first grid
point followed by the generated levels at the later grid points. -/
def gen_path (ms : MarketState) (z : ℕ → ℚ) (grid : List ℚ) : List ℚ :=
  match grid with
  | [] => []
  | t0 :: rest => ms.initial_value :: gen_levels ms z t0 ms.initial_value 0 rest

/-- The innovation stream of path `p` under base seed `seed`, honouring
the antithetic-sampling flag: odd-indexed paths reuse the draws of the
preceding even path with negated sign. -/
def path_draws (cfg : SimulationConfig) (seed p : ℕ) : ℕ → ℚ :=
  fun k =>
    if cfg.antithetic ∧ p % 2 = 1 then -(draw seed (p - 1) k) else draw seed p k

/-- The effective seed of one engine invocation: the configured seed in
fixed-seed mode, the ambient random-number-generator state otherwise. -/
def effective_seed (cfg : SimulationConfig) (w : ℕ) : ℕ :=
  if cfg.fixed_seed then cfg.seed else w

/-- The ambient generator state after one engine invocation: unchanged in
fixed-seed mode (the engine re-seeds), advanced otherwise. -/
def next_world (cfg : SimulationConfig) (w : ℕ) : ℕ :=
  if cfg.fixed_seed then w else w + 1

/-- The raw path table for a given seed. -/
def mk_pathset (cfg : SimulationConfig) (grid : List ℚ) (ms : MarketState)
    (seed : ℕ) : PathSet :=
  ⟨(List.range cfg.paths.toNat).map fun p => gen_path ms (path_draws cfg seed p) grid⟩

/-- Modelled from the spec: the path simulation engine.  Given
`MarketState`, `SimulationConfig` and a time grid, produces a `PathSet`,
threading an ambient generator state `w`; fails with `InvalidConfig` if
the path count is ≤ 0 or the grid has fewer than 2 points.  The dx
simulation classes (`geometric_brownian_motion`, ...) are not under
`src`. -/
def simulate (cfg : SimulationConfig) (grid : List ℚ) (ms : MarketState)
    (w : ℕ) : Except DxError (PathSet × ℕ) :=
  if cfg.paths ≤ 0 ∨ grid.length < 2 then .error .InvalidConfig
  else .ok (mk_pathset cfg grid ms (effective_seed cfg w), next_world cfg w)

/-- Terminal level of one path (0 for an empty path, which does not occur
for valid grids). -/
def terminal_level (path : List ℚ) : ℚ := path.getLastD 0

/-- Modelled from the spec: Monte Carlo present value of a
single-underlying European payoff — evaluate the payoff at terminal path
values, average over paths, and discount with the discount factor `df`
applied to the grid's final date. -/
def present_value_mc (df : ℚ → ℚ) (payoff : ℚ → ℚ) (cfg : SimulationConfig)
    (grid : List ℚ) (ms : MarketState) (w : ℕ) : Except DxError (ℚ × ℕ) :=
  match simulate cfg grid ms w with
  | .error e => .error e
  | .ok (ps, w') =>
      let payoffs := ps.levels.map fun path => payoff (terminal_level path)
      .ok (df (grid.getLastD 0) * (payoffs.sum / (ps.levels.length : ℚ)), w')

/-- Exact rational square root: `some s` with `s * s = x` and `0 ≤ s` when
`x` is a perfect rational square, `none` otherwise.  It stands in for the
floating-point square root of the factorization routine; the model
reports factorization failure when no exact root exists. -/
def ratSqrt (x : ℚ) : Option ℚ :=
  if 0 ≤ x ∧ Nat.sqrt x.num.toNat * Nat.sqrt x.num.toNat = x.num.toNat ∧
      Nat.sqrt x.den * Nat.sqrt x.den = x.den then
    some ((Nat.sqrt x.num.toNat : ℚ) / (Nat.sqrt x.den : ℚ))
  else none

theorem ratSqrt_spec (x s : ℚ) (h : ratSqrt x = some s) : 0 ≤ s ∧ s * s = x := by
  unfold ratSqrt at h
  split at h
  case isFalse => exact absurd h (by simp)
  case isTrue hc =>
    obtain ⟨hx, hn, hd⟩ := hc
    obtain rfl : ((Nat.sqrt x.num.toNat : ℚ) / (Nat.sqrt x.den : ℚ)) = s :=
      Option.some.inj h
    have hnn : (0 : ℤ) ≤ x.num := Rat.num_nonneg.mpr hx
    have h1 : ((x.num.toNat : ℕ) : ℚ) = ((x.num : ℤ) : ℚ) := by
      exact_mod_cast Int.toNat_of_nonneg hnn
    refine ⟨by positivity, ?_⟩
    rw [div_mul_div_comm, ← Nat.cast_mul, ← Nat.cast_mul, hn, hd, h1,
      Rat.num_div_den]

/-- Modelled from the spec: the lower-triangular Cholesky factorization
of the correlation matrix used during portfolio construction (the
`numpy.linalg.cholesky` call producing the `cholesky_matrix` entry of
the valuation environment is not under `src`).  Standard recursive
column elimination: take the square root of the leading pivot, scale the
first column, recurse on the Schur complement.  `none` signals
factorization failure (negative or vanishing pivot, asymmetric input, or
no exact rational root). -/
def cholesky : (n : ℕ) → (Fin n → Fin n → ℚ) → Option (Fin n → Fin n → ℚ)
  | 0, _ => some fun i _ => i.elim0
  | n + 1, A =>
      match ratSqrt (A 0 0) with
      | none => none
      | some s =>
          if s = 0 then none
          else if ¬ (∀ j : Fin n, A 0 j.succ = A j.succ 0) then none
          else
            match cholesky n
                (fun i j => A i.succ j.succ - A i.succ 0 * A j.succ 0 / A 0 0) with
            | none => none
            | some L' =>
                some fun i j =>
                  Fin.cases (Fin.cases s (fun _ => 0) j)
                    (fun i' => Fin.cases (A i'.succ 0 / s) (fun j' => L' i' j') j) i

/-- A matrix is lower triangular when all entries strictly above the
diagonal vanish. -/
def LowerTri (n : ℕ) (L : Fin n → Fin n → ℚ) : Prop :=
  ∀ i j : Fin n, (i : ℕ) < (j : ℕ) → L i j = 0

/-- Entry `(i, j)` of `L · Lᵀ`. -/
def gram (n : ℕ) (L : Fin n → Fin n → ℚ) (i j : Fin n) : ℚ :=
  ∑ k : Fin n, L i k * L j k

/-- Positive semi-definiteness of a rational matrix. -/
def PSD (n : ℕ) (A : Fin n → Fin n → ℚ) : Prop :=
  ∀ x : Fin n → ℚ, 0 ≤ ∑ i : Fin n, ∑ j : Fin n, x i * A i j * x j

/-- Symmetry of a rational matrix. -/
def SymmMat (n : ℕ) (A : Fin n → Fin n → ℚ) : Prop :=
  ∀ i j : Fin n, A i j = A j i

/-- Soundness of the factorization: on success the factor is lower
triangular and multiplies against its own transpose to the input
matrix. -/
theorem cholesky_spec : ∀ (n : ℕ) (A L : Fin n → Fin n → ℚ),
    cholesky n A = some L → LowerTri n L ∧ ∀ i j, gram n L i j = A i j := by
  intro n
  induction n with
  | zero =>
      intro A L h
      exact ⟨fun i => i.elim0, fun i => i.elim0⟩
  | succ n ih =>
      intro A L h
      unfold cholesky at h
      split at h
      next => exact absurd h (by simp)
      next s hs =>
          split at h
          next => exact absurd h (by simp)
          next hs0 =>
          split at h
          next => exact absurd h (by simp)
          next hsymneg =>
          have hsym : ∀ j : Fin n, A 0 j.succ = A j.succ 0 := not_not.mp hsymneg
          split at h
          next => exact absurd h (by simp)
          next L' hrec =>
              obtain rfl : _ = L := Option.some.inj h
              obtain ⟨ihLT, ihG⟩ := ih _ _ hrec
              obtain ⟨hs_nonneg, hss⟩ := ratSqrt_spec _ _ hs
              have hA00 : A 0 0 ≠ 0 := by
                rw [← hss]; exact mul_ne_zero hs0 hs0
              constructor
              · intro i j hij
                rcases Fin.eq_zero_or_eq_succ i with rfl | ⟨i', rfl⟩ <;>
                  rcases Fin.eq_zero_or_eq_succ j with rfl | ⟨j', rfl⟩
                · simp at hij
                · simp
                · simp at hij
                · have hlt : (i' : ℕ) < (j' : ℕ) := by simpa using hij
                  simp [ihLT i' j' hlt]
              · intro i j
                rcases Fin.eq_zero_or_eq_succ i with rfl | ⟨i', rfl⟩ <;>
                  rcases Fin.eq_zero_or_eq_succ j with rfl | ⟨j', rfl⟩
                · simp [gram, Fin.sum_univ_succ, hss]
                · simp only [gram, Fin.sum_univ_succ, Fin.cases_zero,
                    Fin.cases_succ, zero_mul, Finset.sum_const_zero, add_zero]
                  rw [hsym j']
                  field_simp
                · simp only [gram, Fin.sum_univ_succ, Fin.cases_zero,
                    Fin.cases_succ, mul_zero, Finset.sum_const_zero, add_zero]
                  field_simp
                · simp only [gram, Fin.sum_univ_succ, Fin.cases_zero,
                    Fin.cases_succ]
                  rw [show (∑ k : Fin n, L' i' k * L' j' k) =
                    gram n L' i' j' from rfl, ihG i' j', ← hss]
                  field_simp

/-- Any Gram matrix `L · Lᵀ` is positive semi-definite. -/
theorem gram_psd (n : ℕ) (L : Fin n → Fin n → ℚ) : PSD n (gram n L) := by
  intro x
  have key : ∑ i : Fin n, ∑ j : Fin n, x i * gram n L i j * x j =
      ∑ k : Fin n, (∑ i : Fin n, x i * L i k) * (∑ j : Fin n, x j * L j k) := by
    calc ∑ i : Fin n, ∑ j : Fin n, x i * gram n L i j * x j
        = ∑ i : Fin n, ∑ j : Fin n, ∑ k : Fin n,
            (x i * L i k) * (x j * L j k) := by
          refine Finset.sum_congr rfl fun i _ => Finset.sum_congr rfl fun j _ => ?_
          rw [gram, Finset.mul_sum, Finset.sum_mul]
          exact Finset.sum_congr rfl fun k _ => by ring
      _ = ∑ i : Fin n, ∑ k : Fin n, ∑ j : Fin n,
            (x i * L i k) * (x j * L j k) :=
          Finset.sum_congr rfl fun i _ => Finset.sum_comm
      _ = ∑ k : Fin n, ∑ i : Fin n, ∑ j : Fin n,
            (x i * L i k) * (x j * L j k) := Finset.sum_comm
      _ = ∑ k : Fin n, (∑ i : Fin n, x i * L i k) * (∑ j : Fin n, x j * L j k) :=
          Finset.sum_congr rfl fun k _ => (Finset.sum_mul_sum _ _ _ _).symm
  rw [key]
  exact Finset.sum_nonneg fun k _ => mul_self_nonneg _

/-- A successful factorization certifies that the input was symmetric and
positive semi-definite. -/
theorem cholesky_symm_psd (n : ℕ) (A L : Fin n → Fin n → ℚ)
    (h : cholesky n A = some L) : SymmMat n A ∧ PSD n A := by
  obtain ⟨-, hG⟩ := cholesky_spec n A L h
  constructor
  · intro i j
    rw [← hG i j, ← hG j i, gram, gram]
    exact Finset.sum_congr rfl fun k _ => mul_comm _ _
  · intro x
    have h2 : ∑ i : Fin n, ∑ j : Fin n, x i * A i j * x j =
        ∑ i : Fin n, ∑ j : Fin n, x i * gram n L i j * x j :=
      Finset.sum_congr rfl fun i _ => Finset.sum_congr rfl fun j _ => by
        rw [hG i j]
    rw [h2]
    exact gram_psd n L x

/-- The identity matrix. -/
def idMat (n : ℕ) : Fin n → Fin n → ℚ := fun i j => if i = j then 1 else 0

theorem ratSqrt_one : ratSqrt 1 = some 1 := by
  norm_num [ratSqrt]

/-- The factorization of the identity is the identity. -/
theorem cholesky_idMat : ∀ n, cholesky n (idMat n) = some (idMat n) := by
  intro n
  induction n with
  | zero =>
      unfold cholesky
      congr 1
      funext i j
      exact i.elim0
  | succ n ih =>
      unfold cholesky
      have h00 : idMat (n + 1) 0 0 = 1 := by simp [idMat]
      rw [h00, ratSqrt_one]
      have hsym : ∀ j : Fin n, idMat (n + 1) 0 j.succ = idMat (n + 1) j.succ 0 :=
        fun j => by simp [idMat, Fin.succ_ne_zero j, (Fin.succ_ne_zero j).symm]
      dsimp only
      rw [if_neg one_ne_zero, if_neg (not_not_intro hsym)]
      have hSchur : (fun i j : Fin n => idMat (n + 1) i.succ j.succ -
          idMat (n + 1) i.succ 0 * idMat (n + 1) j.succ 0 / 1) =
          idMat n := by
        funext i j
        simp [idMat, Fin.succ_ne_zero, Fin.succ_inj]
      rw [hSchur, ih]
      dsimp only
      congr 1
      funext i j
      rcases Fin.eq_zero_or_eq_succ i with rfl | ⟨i', rfl⟩ <;>
        rcases Fin.eq_zero_or_eq_succ j with rfl | ⟨j', rfl⟩
      · simp [idMat]
      · simp [idMat, (Fin.succ_ne_zero j').symm]
      · simp [idMat, Fin.succ_ne_zero i']
      · simp [idMat, Fin.succ_inj]

/-- The four stochastic models of the valuation core: geometric Brownian
motion (Black-Scholes-Merton 1973), jump diffusion (Merton 1976),
stochastic volatility (Heston 1993) and stochastic-volatility jump
diffusion (Bates 1996). -/
inductive FModel where
  | gbm
  | merton
  | heston
  | bates
deriving DecidableEq, Repr

/-- Modelled from the spec: the per-model characteristic exponent of the
log-asset price.  The characteristic-function library itself is not under
`src`; per the spec the four variants differ only in the additional
exponent terms contributed by jumps and/or stochastic variance, the jump
contribution scaling linearly with the jump intensity `lambd` (a
compound-Poisson exponent `lambd * T * (φ_jump(u) - 1)`).  The analytic
building blocks are abstracted as the parameters `gbmTerm` (arguments:
initial value, volatility, short rate, maturity, frequency),
`hestonTerm` (arguments: initial value, volatility, short rate,
mean-reversion speed, long-run variance, vol-of-vol, correlation,
maturity, frequency) and `jumpUnit` (arguments: jump mean, jump width,
maturity, frequency). -/
def char_exponent (gbmTerm : ℚ → ℚ → ℚ → ℚ → ℚ → ℚ)
    (hestonTerm : ℚ → ℚ → ℚ → ℚ → ℚ → ℚ → ℚ → ℚ → ℚ → ℚ)
    (jumpUnit : ℚ → ℚ → ℚ → ℚ → ℚ)
    (m : FModel) (ms : MarketState) (T u : ℚ) : ℚ :=
  match m with
  | .gbm => gbmTerm ms.initial_value ms.volatility ms.short_rate T u
  | .merton => gbmTerm ms.initial_value ms.volatility ms.short_rate T u +
      ms.lambd * jumpUnit ms.mu ms.delta T u
  | .heston => hestonTerm ms.initial_value ms.volatility ms.short_rate
      ms.kappa ms.theta ms.vol_vol ms.rho T u
  | .bates => hestonTerm ms.initial_value ms.volatility ms.short_rate
      ms.kappa ms.theta ms.vol_vol ms.rho T u +
      ms.lambd * jumpUnit ms.mu ms.delta T u

/-- Modelled from the spec: the Fourier pricing engine's call value — a
damped Fourier quadrature of the model's characteristic function.  The
numerical integrator of `M76_call_value` / `H93_call_value` /
`B96_call_value` and the BSM formula are not under `src`; the quadrature
is abstracted as the parameter `quad`, which consumes the characteristic
exponent together with the initial value, short rate, strike and
maturity and returns the call present value. -/
def fourier_call_value (quad : (ℚ → ℚ) → ℚ → ℚ → ℚ → ℚ → ℚ)
    (gbmTerm : ℚ → ℚ → ℚ → ℚ → ℚ → ℚ)
    (hestonTerm : ℚ → ℚ → ℚ → ℚ → ℚ → ℚ → ℚ → ℚ → ℚ → ℚ)
    (jumpUnit : ℚ → ℚ → ℚ → ℚ → ℚ)
    (m : FModel) (ms : MarketState) (K T : ℚ) : ℚ :=
  quad (char_exponent gbmTerm hestonTerm jumpUnit m ms T)
    ms.initial_value ms.short_rate K T

/-- Modelled from the spec: the Fourier pricing engine's put value — like
the call, a present value obtained by numerically integrating a damped
Fourier transform of the same characteristic function.  The put's damping
and integrand differ from the call's, so the put carries its own abstract
quadrature functional `quadP` over the shared characteristic exponent. -/
def fourier_put_value (quadP : (ℚ → ℚ) → ℚ → ℚ → ℚ → ℚ → ℚ)
    (gbmTerm : ℚ → ℚ → ℚ → ℚ → ℚ → ℚ)
    (hestonTerm : ℚ → ℚ → ℚ → ℚ → ℚ → ℚ → ℚ → ℚ → ℚ → ℚ)
    (jumpUnit : ℚ → ℚ → ℚ → ℚ → ℚ)
    (m : FModel) (ms : MarketState) (K T : ℚ) : ℚ :=
  quadP (char_exponent gbmTerm hestonTerm jumpUnit m ms T)
    ms.initial_value ms.short_rate K T

/-- Modelled from the spec: validity of a finite risk-neutral terminal
law — nonnegative weights summing to one whose mean is the forward.  Each
model's characteristic function determines the risk-neutral law of the
terminal asset level that its Fourier transform inverts; the analytic
form of that law is not under `src`, so it is abstracted as a finite
distribution of (weight, level) atoms. -/
def RNValid (d : List (ℚ × ℚ)) (fwd : ℚ) : Prop :=
  (∀ a ∈ d, 0 ≤ a.1) ∧ (d.map Prod.fst).sum = 1 ∧
    (d.map fun a => a.1 * a.2).sum = fwd

/-- The exact (un-truncated, un-discretized) transform price of a call:
the discounted expectation of the call payoff under the risk-neutral
law. -/
def exact_call_value (df : ℚ → ℚ) (d : List (ℚ × ℚ)) (K T : ℚ) : ℚ :=
  df T * (d.map fun a => a.1 * max (a.2 - K) 0).sum

/-- The exact transform price of a put: the discounted expectation of the
put payoff under the risk-neutral law. -/
def exact_put_value (df : ℚ → ℚ) (d : List (ℚ × ℚ)) (K T : ℚ) : ℚ :=
  df T * (d.map fun a => a.1 * max (K - a.2) 0).sum

/-- Exact-level put-call parity: the difference of discounted expected
call and put payoffs over a unit-mass law with forward mean is the
discounted forward minus the discounted strike. -/
theorem payoff_sum_parity (K : ℚ) : ∀ d : List (ℚ × ℚ),
    (d.map fun a => a.1 * max (a.2 - K) 0).sum -
      (d.map fun a => a.1 * max (K - a.2) 0).sum =
      (d.map fun a => a.1 * a.2).sum - K * (d.map Prod.fst).sum := by
  intro d
  induction d with
  | nil => simp
  | cons a l ih =>
      simp only [List.map_cons, List.sum_cons]
      have hmax : max (a.2 - K) 0 - max (K - a.2) 0 = a.2 - K := by
        rcases le_total (a.2 - K) 0 with h | h
        · rw [max_eq_right h,
            max_eq_left (by linarith : (0 : ℚ) ≤ K - a.2)]
          ring
        · rw [max_eq_left h,
            max_eq_right (by linarith : K - a.2 ≤ (0 : ℚ))]
          ring
      have h2 : a.1 * max (a.2 - K) 0 - a.1 * max (K - a.2) 0 =
          a.1 * a.2 - a.1 * K := by
        rw [← mul_sub, hmax, mul_sub]
      linear_combination ih + h2

theorem exact_parity (df : ℚ → ℚ) (d : List (ℚ × ℚ)) (K T S0 : ℚ)
    (hdf : df T ≠ 0)
    (h1 : (d.map Prod.fst).sum = 1)
    (hm : (d.map fun a => a.1 * a.2).sum = S0 / df T) :
    exact_call_value df d K T - exact_put_value df d K T = S0 - K * df T := by
  unfold exact_call_value exact_put_value
  rw [← mul_sub, payoff_sum_parity K d, h1, hm]
  field_simp
  ring

end Dx

namespace Dx

/-- C8 helper fact: in fixed-seed mode the produced path table only
depends on the configuration, grid and market state, not on the ambient
generator state. -/
theorem simulate_fixed_seed_pathset (cfg : SimulationConfig) (grid : List ℚ)
    (ms : MarketState) (w₁ w₂ : ℕ) (hf : cfg.fixed_seed = true) :
    (simulate cfg grid ms w₁).map Prod.fst = (simulate cfg grid ms w₂).map Prod.fst := by
  simp only [simulate, effective_seed, next_world, hf, if_true]
  split <;> rfl

/-- A concrete valid market state used by the witnesses (the notebook's
jump-diffusion market environment: S₀ = 100, σ = 0.2, r = 0.01,
λ = 0.4, μ = -0.6, δ = 0.2, κ = 5, θ = 0.02, vol-of-vol = 0.3,
ρ = -0.5). -/
def msEx : MarketState := ⟨100, 1/5, 1/100, 2/5, -3/5, 1/5, 5, 1/50, 3/10, -1/2⟩

/-- A concrete fixed-seed simulation configuration used by witnesses. -/
def cfgFixed : SimulationConfig := ⟨3, true, 42, false, false⟩

/-- A concrete fresh-seed simulation configuration used by witnesses. -/
def cfgFresh : SimulationConfig := ⟨1, false, 0, false, false⟩

/-- C1: for every market state with valid parameters and every strike and
maturity, the Fourier pricing engine's call value minus its put value
equals the discounted forward (the initial value) minus the discounted
strike, to within the quadrature tolerance 1e-6, for each of the four
models.  The call and the put are separately computed quadratures of the
model's characteristic exponent; the exact transform prices of the
model's risk-neutral law satisfy parity exactly, and the §4.2 truncation
contract — the truncation bound is chosen so that the remainder is
negligible, here each quadrature within half the tolerance of its exact
value — propagates parity to the computed values. -/
theorem fourier_put_call_parity
    (quadC quadP : (ℚ → ℚ) → ℚ → ℚ → ℚ → ℚ → ℚ)
    (gbmTerm : ℚ → ℚ → ℚ → ℚ → ℚ → ℚ)
    (hestonTerm : ℚ → ℚ → ℚ → ℚ → ℚ → ℚ → ℚ → ℚ → ℚ → ℚ)
    (jumpUnit : ℚ → ℚ → ℚ → ℚ → ℚ) (df : ℚ → ℚ)
    (dist : FModel → MarketState → ℚ → List (ℚ × ℚ))
    (m : FModel) (ms : MarketState) (K T : ℚ)
    (_hv : ValidMarket ms) (hdf : df T ≠ 0)
    (hlaw : RNValid (dist m ms T) (ms.initial_value / df T))
    (herrC : |fourier_call_value quadC gbmTerm hestonTerm jumpUnit m ms K T -
      exact_call_value df (dist m ms T) K T| ≤ 1 / 2000000)
    (herrP : |fourier_put_value quadP gbmTerm hestonTerm jumpUnit m ms K T -
      exact_put_value df (dist m ms T) K T| ≤ 1 / 2000000) :
    |fourier_call_value quadC gbmTerm hestonTerm jumpUnit m ms K T -
      fourier_put_value quadP gbmTerm hestonTerm jumpUnit m ms K T -
      (ms.initial_value - K * df T)| ≤ 1 / 1000000 := by
  obtain ⟨-, h1, hm⟩ := hlaw
  have hex := exact_parity df (dist m ms T) K T ms.initial_value hdf h1 hm
  have hsplit : fourier_call_value quadC gbmTerm hestonTerm jumpUnit m ms K T -
      fourier_put_value quadP gbmTerm hestonTerm jumpUnit m ms K T -
      (ms.initial_value - K * df T) =
      (fourier_call_value quadC gbmTerm hestonTerm jumpUnit m ms K T -
        exact_call_value df (dist m ms T) K T) -
      (fourier_put_value quadP gbmTerm hestonTerm jumpUnit m ms K T -
        exact_put_value df (dist m ms T) K T) := by
    rw [← hex]
    ring
  rw [hsplit]
  calc |(fourier_call_value quadC gbmTerm hestonTerm jumpUnit m ms K T -
        exact_call_value df (dist m ms T) K T) -
      (fourier_put_value quadP gbmTerm hestonTerm jumpUnit m ms K T -
        exact_put_value df (dist m ms T) K T)| ≤
      |fourier_call_value quadC gbmTerm hestonTerm jumpUnit m ms K T -
        exact_call_value df (dist m ms T) K T| +
      |fourier_put_value quadP gbmTerm hestonTerm jumpUnit m ms K T -
        exact_put_value df (dist m ms T) K T| := abs_sub _ _
    _ ≤ 1 / 2000000 + 1 / 2000000 := add_le_add herrC herrP
    _ = 1 / 1000000 := by norm_num

/-- Witness for C1 at the notebook's market state: a one-atom
risk-neutral law at the forward 100, unit discounting, strike 90,
maturity 1, and quadratures hitting the exact call value 10 and put
value 0. -/
theorem fourier_put_call_parity_witness :
    ValidMarket msEx ∧
    |fourier_call_value (fun _ _ _ _ _ => 10) (fun _ _ _ _ _ => 0)
        (fun _ _ _ _ _ _ _ _ _ => 0) (fun _ _ _ _ => 0) .gbm msEx 90 1 -
      fourier_put_value (fun _ _ _ _ _ => 0) (fun _ _ _ _ _ => 0)
        (fun _ _ _ _ _ _ _ _ _ => 0) (fun _ _ _ _ => 0) .gbm msEx 90 1 -
      (msEx.initial_value - 90 * (fun _ => (1 : ℚ)) 1)| ≤ 1 / 1000000 :=
  ⟨by norm_num [ValidMarket, msEx],
    fourier_put_call_parity (fun _ _ _ _ _ => 10) (fun _ _ _ _ _ => 0)
      (fun _ _ _ _ _ => 0)
      (fun _ _ _ _ _ _ _ _ _ => 0) (fun _ _ _ _ => 0) (fun _ => 1)
      (fun _ _ _ => [(1, 100)]) .gbm msEx 90 1
      (by norm_num [ValidMarket, msEx])
      (by norm_num)
      (by norm_num [RNValid, msEx])
      (by
        have hc : exact_call_value (fun _ => 1) [(1, 100)] 90 1 = 10 := by
          rw [exact_call_value]
          simp only [List.map_cons, List.map_nil, List.sum_cons, List.sum_nil]
          rw [max_eq_left (by norm_num : (0 : ℚ) ≤ 100 - 90)]
          norm_num
        rw [hc]
        norm_num [fourier_call_value])
      (by
        have hp : exact_put_value (fun _ => 1) [(1, 100)] 90 1 = 0 := by
          rw [exact_put_value]
          simp only [List.map_cons, List.map_nil, List.sum_cons, List.sum_nil]
          rw [max_eq_right (by norm_num : (90 : ℚ) - 100 ≤ 0)]
          norm_num
        rw [hp]
        norm_num [fourier_put_value])⟩

/-- C7: for every market state, strike and maturity, the Bates price with
jump intensity set to 0 equals the Heston price with the same remaining
parameters, and the Merton price with jump intensity 0 equals the GBM
price, within the numerical tolerance 1e-6 (the model prices agree
exactly because the jump contribution to the characteristic exponent
scales with the jump intensity). -/
theorem fourier_model_nesting (quad : (ℚ → ℚ) → ℚ → ℚ → ℚ → ℚ → ℚ)
    (gbmTerm : ℚ → ℚ → ℚ → ℚ → ℚ → ℚ)
    (hestonTerm : ℚ → ℚ → ℚ → ℚ → ℚ → ℚ → ℚ → ℚ → ℚ → ℚ)
    (jumpUnit : ℚ → ℚ → ℚ → ℚ → ℚ)
    (ms : MarketState) (K T : ℚ) :
    |fourier_call_value quad gbmTerm hestonTerm jumpUnit .bates
        { ms with lambd := 0 } K T -
      fourier_call_value quad gbmTerm hestonTerm jumpUnit .heston ms K T| ≤
        1 / 1000000 ∧
    |fourier_call_value quad gbmTerm hestonTerm jumpUnit .merton
        { ms with lambd := 0 } K T -
      fourier_call_value quad gbmTerm hestonTerm jumpUnit .gbm ms K T| ≤
        1 / 1000000 := by
  constructor
  · have h : fourier_call_value quad gbmTerm hestonTerm jumpUnit .bates
        { ms with lambd := 0 } K T =
        fourier_call_value quad gbmTerm hestonTerm jumpUnit .heston ms K T := by
      have hch : char_exponent gbmTerm hestonTerm jumpUnit .bates
          { ms with lambd := 0 } T =
          char_exponent gbmTerm hestonTerm jumpUnit .heston ms T := by
        funext u
        simp [char_exponent]
      simp only [fourier_call_value, hch]
    rw [h, sub_self, abs_zero]
    norm_num
  · have h : fourier_call_value quad gbmTerm hestonTerm jumpUnit .merton
        { ms with lambd := 0 } K T =
        fourier_call_value quad gbmTerm hestonTerm jumpUnit .gbm ms K T := by
      have hch : char_exponent gbmTerm hestonTerm jumpUnit .merton
          { ms with lambd := 0 } T =
          char_exponent gbmTerm hestonTerm jumpUnit .gbm ms T := by
        funext u
        simp [char_exponent]
      simp only [fourier_call_value, hch]
    rw [h, sub_self, abs_zero]
    norm_num

/-- C8: the path simulation engine fails with `InvalidConfig`, producing
no `PathSet`, whenever the requested path count is ≤ 0 or the time grid
has fewer than 2 points; for a positive path count and a grid of at
least 2 points with a valid market state it produces a `PathSet`. -/
theorem simulate_invalid_config (cfg : SimulationConfig) (grid : List ℚ)
    (ms : MarketState) (w : ℕ) :
    (cfg.paths ≤ 0 ∨ grid.length < 2 →
      simulate cfg grid ms w = .error .InvalidConfig) ∧
    (0 < cfg.paths → 2 ≤ grid.length → ValidMarket ms →
      ∃ ps w', simulate cfg grid ms w = .ok (ps, w')) := by
  constructor
  · intro h
    simp [simulate, h]
  · intro hp hg _
    refine ⟨mk_pathset cfg grid ms (effective_seed cfg w), next_world cfg w, ?_⟩
    have hcond : ¬(cfg.paths ≤ 0 ∨ grid.length < 2) := by
      push_neg
      exact ⟨hp, hg⟩
    simp [simulate, hcond]

/-- Witness for C8: a one-point grid is rejected, a two-point grid with
three paths is accepted, at the notebook's market state. -/
theorem simulate_invalid_config_witness :
    simulate cfgFixed [0] msEx 5 = .error .InvalidConfig ∧
    ∃ ps w', simulate cfgFixed [0, 1] msEx 5 = .ok (ps, w') :=
  ⟨(simulate_invalid_config cfgFixed [0] msEx 5).1 (by simp [cfgFixed]),
    (simulate_invalid_config cfgFixed [0, 1] msEx 5).2 (by simp [cfgFixed])
      (by simp) (by norm_num [ValidMarket, msEx])⟩

theorem draw_0_0_0 : draw 0 0 0 = -4/25 := by
  norm_num [draw, lcg]

theorem draw_1_0_0 : draw 1 0 0 = -21/50 := by
  norm_num [draw, lcg]

theorem path_draws_cfgFresh (seed : ℕ) :
    path_draws cfgFresh seed 0 = fun k => draw seed 0 k := by
  funext k
  simp [path_draws, cfgFresh]

theorem mk_pathset_fresh_0 :
    mk_pathset cfgFresh [0, 1] msEx 0 = ⟨[[100, 489/5]]⟩ := by
  have hlev : gen_levels msEx (path_draws cfgFresh 0 0) 0 100 0 [1] =
      [489/5] := by
    simp only [gen_levels, path_draws_cfgFresh]
    norm_num [level_step, msEx, draw_0_0_0]
  have hr : List.range 1 = [0] := by simp [List.range_succ]
  simp only [mk_pathset, show cfgFresh.paths.toNat = 1 from rfl, hr,
    List.map_cons, List.map_nil, gen_path, hlev,
    show msEx.initial_value = 100 from rfl]

theorem mk_pathset_fresh_1 :
    mk_pathset cfgFresh [0, 1] msEx 1 = ⟨[[100, 463/5]]⟩ := by
  have hlev : gen_levels msEx (path_draws cfgFresh 1 0) 0 100 0 [1] =
      [463/5] := by
    simp only [gen_levels, path_draws_cfgFresh]
    norm_num [level_step, msEx, draw_1_0_0]
  have hr : List.range 1 = [0] := by simp [List.range_succ]
  simp only [mk_pathset, show cfgFresh.paths.toNat = 1 from rfl, hr,
    List.map_cons, List.map_nil, gen_path, hlev,
    show msEx.initial_value = 100 from rfl]

theorem simulate_fresh_0 :
    simulate cfgFresh [0, 1] msEx 0 = .ok (⟨[[100, 489/5]]⟩, 1) := by
  rw [simulate, if_neg (by norm_num [cfgFresh])]
  rw [show effective_seed cfgFresh 0 = 0 from rfl,
    show next_world cfgFresh 0 = 1 from rfl, mk_pathset_fresh_0]

theorem simulate_fresh_1 :
    simulate cfgFresh [0, 1] msEx 1 = .ok (⟨[[100, 463/5]]⟩, 2) := by
  rw [simulate, if_neg (by norm_num [cfgFresh])]
  rw [show effective_seed cfgFresh 1 = 1 from rfl,
    show next_world cfgFresh 1 = 2 from rfl, mk_pathset_fresh_1]

theorem pv_fresh_0 :
    present_value_mc (fun _ => 1) (fun s => s) cfgFresh [0, 1] msEx 0 =
      .ok (489/5, 1) := by
  simp only [present_value_mc, simulate_fresh_0, List.map_cons, List.map_nil,
    terminal_level]
  norm_num

theorem pv_fresh_1 :
    present_value_mc (fun _ => 1) (fun s => s) cfgFresh [0, 1] msEx 1 =
      .ok (463/5, 2) := by
  simp only [present_value_mc, simulate_fresh_1, List.map_cons, List.map_nil,
    terminal_level]
  norm_num

/-- C4: in fixed-seed mode two engine calls with identical market state,
configuration and grid produce bit-identical path sets and
`present_value` re-runs return the identical estimate regardless of the
ambient generator state; in fresh-seed mode there is a concrete input on
which an immediate re-run (from the generator state returned by the
first run) yields a different estimate. -/
theorem fixed_seed_idempotence (cfg : SimulationConfig) (grid : List ℚ)
    (ms : MarketState) (df payoff : ℚ → ℚ) (w₁ w₂ : ℕ) :
    (cfg.fixed_seed = true →
      (simulate cfg grid ms w₁).map Prod.fst =
        (simulate cfg grid ms w₂).map Prod.fst ∧
      (present_value_mc df payoff cfg grid ms w₁).map Prod.fst =
        (present_value_mc df payoff cfg grid ms w₂).map Prod.fst) ∧
    (∃ (cfg' : SimulationConfig) (grid' : List ℚ) (ms' : MarketState)
        (w v w' : _),
      cfg'.fixed_seed = false ∧
      present_value_mc (fun _ => 1) (fun s => s) cfg' grid' ms' w = .ok (v, w') ∧
      (present_value_mc (fun _ => 1) (fun s => s) cfg' grid' ms' w').map
        Prod.fst ≠ .ok v) := by
  constructor
  · intro hf
    refine ⟨simulate_fixed_seed_pathset cfg grid ms w₁ w₂ hf, ?_⟩
    by_cases hc : cfg.paths ≤ 0 ∨ grid.length < 2
    · simp [present_value_mc, simulate, hc]
    · simp [present_value_mc, simulate, hc, effective_seed, next_world, hf,
        Except.map]
  · refine ⟨cfgFresh, [0, 1], msEx, 0, 489/5, 1, rfl, pv_fresh_0, ?_⟩
    rw [pv_fresh_1]
    simp only [Except.map]
    intro hcontra
    have : (463 : ℚ)/5 = 489/5 := by
      have := Except.ok.inj hcontra
      exact this
    norm_num at this

/-- Witness for C4: discharging the fixed-seed hypothesis at the concrete
fixed-seed configuration, two ambient generator states 3 and 7. -/
theorem fixed_seed_idempotence_witness :
    cfgFixed.fixed_seed = true ∧
    ((simulate cfgFixed [0, 1] msEx 3).map Prod.fst =
        (simulate cfgFixed [0, 1] msEx 7).map Prod.fst ∧
      (present_value_mc (fun _ => 1) (fun s => s) cfgFixed [0, 1] msEx 3).map
          Prod.fst =
        (present_value_mc (fun _ => 1) (fun s => s) cfgFixed [0, 1] msEx 7).map
          Prod.fst) :=
  ⟨rfl, (fixed_seed_idempotence cfgFixed [0, 1] msEx (fun _ => 1) (fun s => s)
    3 7).1 rfl⟩

/-- Modelled from the spec: option exercise/underlying styles appearing in
the portfolio notebook (`American single`, `European multi`, plus the
benchmarking notebook's European single-underlying options). -/
inductive OType where
  | EuropeanSingle
  | AmericanSingle
  | EuropeanMulti
deriving DecidableEq, Repr

/-- Modelled from the spec: `ContractSpec` — option type, maturity and the
payoff functional (a pure function from the bundle of per-underlying
terminal values to a payoff, replacing the source's payoff expression
strings). -/
structure ContractSpec where
  otype : OType
  maturity : ℚ
  payoff : List ℚ → ℚ

/-- Modelled from the spec: `Position` — name, quantity, underlying
risk-factor names and contract (`dx.derivatives_position`; the class
itself is not under `src`). -/
structure Position where
  name : String
  quantity : ℚ
  underlyings : List String
  spec : ContractSpec

/-- The distinct underlying risk factors referenced by any position. -/
def referenced (positions : List Position) : List String :=
  (positions.map Position.underlyings).flatten.dedup

/-- Modelled from the spec: the valuation environment — simulation
configuration, shared time grid and discount factor curve. -/
structure ValEnv where
  cfg : SimulationConfig
  grid : List ℚ
  df : ℚ → ℚ

/-- Modelled from the spec: `Portfolio` — the positions together with the
derived lower-triangular Cholesky factor of the correlation matrix
(stored padded to a total function on ℕ indices). -/
structure Portfolio where
  positions : List Position
  chol : ℕ → ℕ → ℚ

/-- Look up the pairwise correlation of two named factors in the
correlation list (either orientation; default 0). -/
def corr_lookup (corrs : List (String × String × ℚ)) (a b : String) : ℚ :=
  match corrs.find? (fun t =>
      decide ((t.1 = a ∧ t.2.1 = b) ∨ (t.1 = b ∧ t.2.1 = a))) with
  | some t => t.2.2
  | none => 0

/-- Modelled from the spec: the correlation matrix over the named risk
factors — unit diagonal, pairwise correlations elsewhere, identity when
no correlations are supplied. -/
def corr_matrix (names : List String) (corrs : List (String × String × ℚ)) :
    Fin names.length → Fin names.length → ℚ :=
  fun i j => if i = j then 1 else corr_lookup corrs (names.get i) (names.get j)

/-- Pad a `Fin`-indexed matrix to ℕ indices (0 outside). -/
def pad (n : ℕ) (L : Fin n → Fin n → ℚ) : ℕ → ℕ → ℚ :=
  fun i j =>
    if hi : i < n then if hj : j < n then L ⟨i, hi⟩ ⟨j, hj⟩ else 0 else 0

/-- Modelled from the spec: portfolio construction
(`dx.derivatives_portfolio`, not under `src`) — factorize the correlation
matrix of the referenced risk factors; factorization failure is the hard
error `SingularCorrelation` and no portfolio is produced. -/
def mk_portfolio (positions : List Position)
    (corrs : List (String × String × ℚ)) : Except DxError Portfolio :=
  match cholesky (referenced positions).length
      (corr_matrix (referenced positions) corrs) with
  | none => .error .SingularCorrelation
  | some L => .ok ⟨positions, pad _ L⟩

/-- Effectful map over `Except`: the first failing element aborts the
whole computation with its error (explicit structural recursion used in
place of the monadic `mapM`). -/
def mapE {α β : Type} (f : α → Except DxError β) : List α → Except DxError (List β)
  | [] => .ok []
  | a :: l =>
      match f a with
      | .error e => .error e
      | .ok b =>
          match mapE f l with
          | .error e => .error e
          | .ok bs => .ok (b :: bs)

/-- Effectful map over `Option`. -/
def mapO {α β : Type} (f : α → Option β) : List α → Option (List β)
  | [] => some []
  | a :: l =>
      match f a with
      | none => none
      | some b =>
          match mapO f l with
          | none => none
          | some bs => some (b :: bs)

/-- Antithetic pairing of a draw family: odd-indexed paths reuse the
preceding even path's draws with negated sign. -/
def antithetize (cfg : SimulationConfig) (z : ℕ → ℕ → ℚ) : ℕ → ℕ → ℚ :=
  fun p k => if cfg.antithetic ∧ p % 2 = 1 then -(z (p - 1) k) else z p k

/-- Correlated innovation for factor `i`: the Cholesky factor applied to
the vector of independent per-factor draws (factor `j`'s stream is seeded
reproducibly from the base seed and `j`). -/
def corr_draws (chol : ℕ → ℕ → ℚ) (nfac base i : ℕ) : ℕ → ℕ → ℚ :=
  fun p k => ((List.range nfac).map fun j => chol i j * draw (base + j) p k).sum

/-- The path table of one risk factor from a given draw family. -/
def mk_pathset_z (cfg : SimulationConfig) (grid : List ℚ) (ms : MarketState)
    (z : ℕ → ℕ → ℚ) : PathSet :=
  ⟨(List.range cfg.paths.toNat).map fun p =>
    gen_path ms (antithetize cfg z p) grid⟩

/-- Look up the market state bound to a named risk factor. -/
def lookup_state (rf : List (String × MarketState)) (nm : String) :
    Option MarketState :=
  (rf.find? fun p => p.1 == nm).map Prod.snd

/-- Modelled from the spec: the fresh correlated joint simulation of one
portfolio revaluation — one `PathSet` per distinct referenced risk
factor, generated once and shared by every position referencing that
factor; fails with `InvalidConfig` on a non-positive path count or a
short grid and with `UnknownRiskFactor` when a referenced factor has no
bound market state. -/
def joint_simulation (env : ValEnv) (chol : ℕ → ℕ → ℚ) (names : List String)
    (states : List (String × MarketState)) (w : ℕ) :
    Except DxError (List (String × PathSet) × ℕ) :=
  if env.cfg.paths ≤ 0 ∨ env.grid.length < 2 then .error .InvalidConfig
  else
    match mapE (fun q =>
        match lookup_state states q.2 with
        | none => Except.error DxError.UnknownRiskFactor
        | some ms => Except.ok (q.2,
            mk_pathset_z env.cfg env.grid ms
              (corr_draws chol names.length (effective_seed env.cfg w) q.1)))
        names.enum with
    | .error e => .error e
    | .ok pm => .ok (pm, next_world env.cfg w)

/-- Look up the path set simulated for a named risk factor. -/
def lookup_paths (pm : List (String × PathSet)) (nm : String) :
    Option PathSet :=
  (pm.find? fun p => p.1 == nm).map Prod.snd

/-- Modelled from the spec: pathwise payoff of one contract — the payoff
functional on the bundle of per-underlying terminal values for European
styles; for the American style (whose regression-based continuation
estimator is not under `src` and is abstracted here) the best exercise
value along the single underlying's path. -/
def path_payoff (spec : ContractSpec) (paths : List (List ℚ)) : ℚ :=
  match spec.otype with
  | .AmericanSingle => ((paths.headD []).map fun s => spec.payoff [s]).foldr max 0
  | _ => spec.payoff (paths.map terminal_level)

/-- Modelled from the spec: present value of one position from the shared
path sets — average the pathwise payoff over paths and discount to the
pricing date; fails with `InvalidContract` for an unsupported
exercise/underlying combination (American style with other than exactly
one underlying) and with `UnknownRiskFactor` when an underlying has no
simulated path set. -/
def position_value (df : ℚ → ℚ) (pm : List (String × PathSet))
    (pos : Position) : Except DxError ℚ :=
  if pos.spec.otype = .AmericanSingle ∧ pos.underlyings.length ≠ 1 then
    .error .InvalidContract
  else
  match mapO (lookup_paths pm) pos.underlyings with
  | none => .error .UnknownRiskFactor
  | some pss =>
      let npaths := (pss.headD ⟨[]⟩).levels.length
      let payoffs := (List.range npaths).map fun p =>
        path_payoff pos.spec (pss.map fun ps => ps.levels.getD p [])
      .ok (df pos.spec.maturity * (payoffs.sum / (npaths : ℚ)))

/-- Modelled from the spec: `get_values` / `total_value()` — trigger one
fresh correlated joint simulation across all distinct referenced risk
factors, value every position against the shared path sets, and return
the per-position values together with the total (sum of quantity ×
present value); any position failure aborts the whole call with that
error and no partial result. -/
def get_values (pf : Portfolio) (env : ValEnv)
    (states : List (String × MarketState)) (w : ℕ) :
    Except DxError (List (Position × ℚ) × ℚ × ℕ) :=
  match joint_simulation env pf.chol (referenced pf.positions) states w with
  | .error e => .error e
  | .ok (pm, w') =>
      match mapE (fun p =>
          (position_value env.df pm p).map fun v => (p, v)) pf.positions with
      | .error e => .error e
      | .ok rows => .ok (rows, (rows.map fun r => r.1.quantity * r.2).sum, w')

/-- The portfolio total of one revaluation. -/
def total_value (pf : Portfolio) (env : ValEnv)
    (states : List (String × MarketState)) (w : ℕ) : Except DxError ℚ :=
  (get_values pf env states w).map fun r => r.2.1

/-- The value of a successful valuation (0 on failure). -/
def pv_or0 : Except DxError ℚ → ℚ
  | .ok v => v
  | .error _ => 0

/-- The two sensitivity labels of the risk report: volatility (Vega) and
initial value (Delta). -/
inductive Greek where
  | Vega
  | Delta
deriving DecidableEq, Repr

/-- The market-state parameter a Greek perturbs. -/
def get_param : Greek → MarketState → ℚ
  | .Vega, ms => ms.volatility
  | .Delta, ms => ms.initial_value

/-- Override the market-state parameter a Greek perturbs. -/
def set_param : Greek → ℚ → MarketState → MarketState
  | .Vega, v, ms => { ms with volatility := v }
  | .Delta, v, ms => { ms with initial_value := v }

/-- Apply an override to the named risk factor's market state. -/
def update_factor (states : List (String × MarketState)) (nm : String)
    (f : MarketState → MarketState) : List (String × MarketState) :=
  states.map fun p => if p.1 == nm then (p.1, f p.2) else p

/-- One grid point of the risk report: revalue the portfolio with the
named factor's parameter overridden to `v`, from the unperturbed
states. -/
def point_eval (pf : Portfolio) (env : ValEnv) (nm : String) (g : Greek)
    (states : List (String × MarketState)) (w : ℕ) (v : ℚ) :
    Except DxError ℚ :=
  total_value pf env (update_factor states nm (set_param g v)) w

/-- Modelled from the spec: the override → revalue → record → restore loop
of `get_port_risk` over the multiplier grid; the override is reverted
after every grid point, also when that point's revaluation fails. -/
def sweep_points (pf : Portfolio) (env : ValEnv) (nm : String) (g : Greek)
    (base : ℚ) (w : ℕ) :
    List ℚ → List (String × MarketState) →
      List (ℚ × Except DxError ℚ) × List (String × MarketState)
  | [], states => ([], states)
  | m :: rest, states =>
      let states1 := update_factor states nm (set_param g (m * base))
      let res := total_value pf env states1 w
      let states2 := update_factor states1 nm (set_param g base)
      let out := sweep_points pf env nm g base w rest states2
      ((m * base, res) :: out.1, out.2)

/-- Modelled from the spec: the relative perturbation grid of
`get_port_risk` — multipliers from 0.8 to 1.2 centered at 1.0, with
configurable step (default 0.1). -/
def grid_points (step : ℚ) : List ℚ :=
  if 0 < step then
    (List.range (((2 : ℚ) / 5 / step).floor.toNat + 1)).map fun i =>
      4/5 + (i : ℚ) * step
  else [1]

/-- Modelled from the spec: the risk report for one named risk factor —
sweep the factor's Greek parameter over the multiplier grid, record
(perturbed parameter value, portfolio value) pairs, and return them
together with the unperturbed base-case portfolio value and the final
states. -/
def risk_report_fn (pf : Portfolio) (env : ValEnv) (g : Greek) (step : ℚ)
    (nm : String) (states : List (String × MarketState)) (w : ℕ) :
    List (ℚ × Except DxError ℚ) × Except DxError ℚ ×
      List (String × MarketState) :=
  let base := get_param g ((lookup_state states nm).getD
    ⟨0, 0, 0, 0, 0, 0, 0, 0, 0, 0⟩)
  let out := sweep_points pf env nm g base w (grid_points step) states
  (out.1, total_value pf env states w, out.2)

/-- `Except.map` on a success. -/
theorem except_map_ok {α β : Type} (f : α → β) (x : α) :
    Except.map f (Except.ok x : Except DxError α) = .ok (f x) := rfl

/-- `Except.map` on a failure. -/
theorem except_map_error {α β : Type} (f : α → β) (e : DxError) :
    Except.map f (Except.error e : Except DxError α) = .error e := rfl

/-- When every position values successfully, the row computation returns
one row per position carrying that position's value. -/
theorem mapE_rows_ok (df : ℚ → ℚ) (pm : List (String × PathSet))
    (l : List Position)
    (h : ∀ p ∈ l, ∃ v, position_value df pm p = .ok v) :
    mapE (fun p => (position_value df pm p).map fun v => (p, v)) l =
      .ok (l.map fun p => (p, pv_or0 (position_value df pm p))) := by
  induction l with
  | nil => rfl
  | cons a l ih =>
      obtain ⟨v, hv⟩ := h a (List.mem_cons_self a l)
      have ih' := ih fun p hp => h p (List.mem_cons_of_mem a hp)
      simp [mapE, hv, ih', pv_or0, except_map_ok]

/-- Every row of a successful row computation records the value returned
by `position_value` for its position. -/
theorem mapE_rows_mem (df : ℚ → ℚ) (pm : List (String × PathSet))
    (l : List Position) (ys : List (Position × ℚ))
    (h : mapE (fun p => (position_value df pm p).map fun v => (p, v)) l =
      .ok ys) :
    ∀ q v, (q, v) ∈ ys → position_value df pm q = .ok v := by
  induction l generalizing ys with
  | nil =>
      obtain rfl : ([] : List (Position × ℚ)) = ys := Except.ok.inj h
      intro q v hm
      simp at hm
  | cons a l ih =>
      rw [mapE] at h
      cases ha : position_value df pm a with
      | error e => simp [ha, except_map_error] at h
      | ok v0 =>
          cases hrest : mapE
              (fun p => (position_value df pm p).map fun v => (p, v)) l with
          | error e => simp [ha, hrest, except_map_ok] at h
          | ok ys' =>
              simp only [ha, hrest, except_map_ok] at h
              obtain rfl : (a, v0) :: ys' = ys := Except.ok.inj h
              intro q v hm
              rcases List.mem_cons.mp hm with heq | htl
              · rw [(Prod.mk.injEq .. ▸ heq : q = a ∧ v = v0).1,
                  (Prod.mk.injEq .. ▸ heq : q = a ∧ v = v0).2]
                exact ha
              · exact ih ys' hrest q v htl

/-- A single failing position propagates its error through the row
computation when every other position values successfully. -/
theorem mapE_rows_error (df : ℚ → ℚ) (pm : List (String × PathSet))
    (l : List Position) (p : Position) (e : DxError)
    (hmem : p ∈ l) (hp : position_value df pm p = .error e)
    (hothers : ∀ q ∈ l, q ≠ p → ∃ v, position_value df pm q = .ok v) :
    mapE (fun q => (position_value df pm q).map fun v => (q, v)) l =
      .error e := by
  induction l with
  | nil => cases hmem
  | cons a l ih =>
      rw [mapE]
      by_cases hap : a = p
      · subst hap
        simp [hp, except_map_error]
      · obtain ⟨v, hv⟩ := hothers a (List.mem_cons_self a l) hap
        have hmem' : p ∈ l := by
          rcases List.mem_cons.mp hmem with heq | htl
          · exact absurd heq.symm hap
          · exact htl
        have hrec := ih hmem'
          (fun q hq hqp => hothers q (List.mem_cons_of_mem a hq) hqp)
        simp [hv, hrec, except_map_ok]

/-- The value of a position depends only on its contract and underlying
risk factors (and the shared path sets), not on its name or quantity. -/
theorem position_value_congr (df : ℚ → ℚ) (pm : List (String × PathSet))
    (p₁ p₂ : Position) (hs : p₁.spec = p₂.spec)
    (hu : p₁.underlyings = p₂.underlyings) :
    position_value df pm p₁ = position_value df pm p₂ := by
  unfold position_value
  rw [hs, hu]

/-- C2: for every portfolio, `total_value()` returns exactly the sum over
all positions of quantity times that position's present value, where each
present value is computed against the path sets of the one fresh
correlated joint simulation across all distinct underlying risk factors
referenced by any position, performed for that revaluation. -/
theorem total_value_sums_positions (pf : Portfolio) (env : ValEnv)
    (states : List (String × MarketState)) (w : ℕ)
    (pm : List (String × PathSet)) (w' : ℕ)
    (hsim : joint_simulation env pf.chol (referenced pf.positions) states w =
      .ok (pm, w'))
    (hpos : ∀ p ∈ pf.positions, ∃ v, position_value env.df pm p = .ok v) :
    get_values pf env states w =
      .ok (pf.positions.map fun p => (p, pv_or0 (position_value env.df pm p)),
        (pf.positions.map fun p =>
          p.quantity * pv_or0 (position_value env.df pm p)).sum, w') := by
  simp only [get_values, hsim, mapE_rows_ok env.df pm pf.positions hpos]
  simp [List.map_map, Function.comp_def]

/-- C5: within one `total_value()` revaluation, paths are generated once
per risk factor and shared; two positions with identical quantity,
contract and underlying risk factors receive equal present values (and
equal position values) in that revaluation. -/
theorem equal_positions_equal_values (pf : Portfolio) (env : ValEnv)
    (states : List (String × MarketState)) (w : ℕ)
    (rows : List (Position × ℚ)) (tot : ℚ) (w' : ℕ)
    (hok : get_values pf env states w = .ok (rows, tot, w'))
    (p₁ p₂ : Position) (v₁ v₂ : ℚ)
    (h₁ : (p₁, v₁) ∈ rows) (h₂ : (p₂, v₂) ∈ rows)
    (hq : p₁.quantity = p₂.quantity) (hs : p₁.spec = p₂.spec)
    (hu : p₁.underlyings = p₂.underlyings) :
    v₁ = v₂ ∧ p₁.quantity * v₁ = p₂.quantity * v₂ := by
  unfold get_values at hok
  split at hok
  next => exact absurd hok (by simp)
  next pm w'' hsim =>
    split at hok
    next => exact absurd hok (by simp)
    next rows0 hrows =>
      have h := Except.ok.inj hok
      have hr : rows0 = rows := by
        have h2 := congrArg Prod.fst h
        simpa using h2
      subst hr
      have hv₁ : position_value env.df pm p₁ = .ok v₁ :=
        mapE_rows_mem env.df pm pf.positions rows0 hrows p₁ v₁ h₁
      have hv₂ : position_value env.df pm p₂ = .ok v₂ :=
        mapE_rows_mem env.df pm pf.positions rows0 hrows p₂ v₂ h₂
      have hcongr := position_value_congr env.df pm p₁ p₂ hs hu
      have hv : v₁ = v₂ := by
        have := hcongr ▸ hv₁
        rw [this] at hv₂
        exact Except.ok.inj hv₂
      exact ⟨hv, by rw [hq, hv]⟩

/-- C9: if valuation of any single position fails during `total_value()`,
the whole aggregate call fails with that position's error — no total, no
partial result, no silently omitted position. -/
theorem position_failure_aborts (pf : Portfolio) (env : ValEnv)
    (states : List (String × MarketState)) (w : ℕ)
    (pm : List (String × PathSet)) (w' : ℕ) (p : Position) (e : DxError)
    (hsim : joint_simulation env pf.chol (referenced pf.positions) states w =
      .ok (pm, w'))
    (hmem : p ∈ pf.positions)
    (hp : position_value env.df pm p = .error e)
    (hothers : ∀ q ∈ pf.positions, q ≠ p →
      ∃ v, position_value env.df pm q = .ok v) :
    get_values pf env states w = .error e := by
  simp only [get_values, hsim,
    mapE_rows_error env.df pm pf.positions p e hmem hp hothers]

/-- Overriding the same parameter twice keeps only the last override. -/
theorem set_param_set_param (g : Greek) (b v : ℚ) (ms : MarketState) :
    set_param g b (set_param g v ms) = set_param g b ms := by
  cases g <;> rfl

/-- Overriding a parameter with its own current value is the identity. -/
theorem set_param_get_param (g : Greek) (ms : MarketState) :
    set_param g (get_param g ms) ms = ms := by
  cases g <;> rfl

/-- Overriding the named factor's parameter with the value it already
holds leaves the states unchanged. -/
theorem update_factor_base (states : List (String × MarketState))
    (nm : String) (g : Greek) (base : ℚ)
    (hbase : ∀ p ∈ states, p.1 = nm → get_param g p.2 = base) :
    update_factor states nm (set_param g base) = states := by
  unfold update_factor
  conv_rhs => rw [← List.map_id states]
  refine List.map_congr_left fun p hp => ?_
  by_cases h : p.1 = nm
  · have ht : (p.1 == nm) = true := beq_iff_eq.mpr h
    have hb : get_param g p.2 = base := hbase p hp h
    simp only [ht, if_true, id_eq, ← hb, set_param_get_param, Prod.mk.eta]
  · have ht : (p.1 == nm) = false := beq_eq_false_iff_ne.mpr h
    simp [ht, h]

/-- The override → restore pair returns the states to their original
value, whatever the overridden value was. -/
theorem update_update_restore (states : List (String × MarketState))
    (nm : String) (g : Greek) (base v : ℚ)
    (hbase : ∀ p ∈ states, p.1 = nm → get_param g p.2 = base) :
    update_factor (update_factor states nm (set_param g v)) nm
      (set_param g base) = states := by
  unfold update_factor
  rw [List.map_map]
  conv_rhs => rw [← List.map_id states]
  refine List.map_congr_left fun p hp => ?_
  by_cases h : p.1 = nm
  · have ht : (p.1 == nm) = true := beq_iff_eq.mpr h
    have hb : get_param g p.2 = base := hbase p hp h
    simp only [Function.comp_apply, ht, if_true, id_eq,
      set_param_set_param, ← hb, set_param_get_param, Prod.mk.eta]
  · have ht : (p.1 == nm) = false := beq_eq_false_iff_ne.mpr h
    simp [ht, h]

/-- The sweep records the per-point evaluations of the original states
and hands the original states back after each point, including failing
points. -/
theorem sweep_points_spec (pf : Portfolio) (env : ValEnv) (nm : String)
    (g : Greek) (base : ℚ) (w : ℕ) (grid : List ℚ)
    (states : List (String × MarketState))
    (hbase : ∀ p ∈ states, p.1 = nm → get_param g p.2 = base) :
    sweep_points pf env nm g base w grid states =
      (grid.map fun m =>
        (m * base, point_eval pf env nm g states w (m * base)), states) := by
  induction grid with
  | nil => rfl
  | cons m rest ih =>
      simp only [sweep_points]
      rw [update_update_restore states nm g base (m * base) hbase, ih]
      simp [point_eval]

/-- C3: for every risk factor name and parameter grid, the risk report
evaluates grid points independently — every recorded (grid value,
portfolio value) pair is the evaluation of a pure function of the
unperturbed states, so the records do not depend on evaluation order —
and after each grid point, also when its revaluation fails, the named
factor's parameter is restored, leaving the final states identical to the
original ones; the report also returns the unperturbed base-case
portfolio value. -/
theorem risk_report_restore_and_independence (pf : Portfolio) (env : ValEnv)
    (g : Greek) (step : ℚ) (nm : String)
    (states : List (String × MarketState)) (w : ℕ) (ms0 : MarketState)
    (grid : List ℚ)
    (hms : lookup_state states nm = some ms0)
    (hbase : ∀ p ∈ states, p.1 = nm → get_param g p.2 = get_param g ms0) :
    (sweep_points pf env nm g (get_param g ms0) w grid states).1 =
      grid.map (fun m => (m * get_param g ms0,
        point_eval pf env nm g states w (m * get_param g ms0))) ∧
    (sweep_points pf env nm g (get_param g ms0) w grid states).2 = states ∧
    (risk_report_fn pf env g step nm states w).1 =
      (grid_points step).map (fun m => (m * get_param g ms0,
        point_eval pf env nm g states w (m * get_param g ms0))) ∧
    (risk_report_fn pf env g step nm states w).2.1 =
      total_value pf env states w ∧
    (risk_report_fn pf env g step nm states w).2.2 = states := by
  have hsw := sweep_points_spec pf env nm g (get_param g ms0) w grid states hbase
  have hsw' := sweep_points_spec pf env nm g (get_param g ms0) w
    (grid_points step) states hbase
  refine ⟨by rw [hsw], by rw [hsw], ?_, ?_, ?_⟩
  · simp only [risk_report_fn, hms, Option.getD_some, hsw']
  · simp only [risk_report_fn]
  · simp only [risk_report_fn, hms, Option.getD_some, hsw']

/-- C10: the perturbation grid of the risk report is built from relative
multipliers of the base parameter centered at 1.0 — 0.8 to 1.2 in steps
of 0.1 by default, with granularity configurable via the step argument —
each recorded factor entry equals the multiplier times the factor's base
parameter (volatility for Vega, initial value for Delta), and the grid
point at multiplier 1.0 revalues to exactly the unperturbed benchmark
value (difference zero). -/
theorem grid_default_and_center (pf : Portfolio) (env : ValEnv) (g : Greek)
    (step : ℚ) (nm : String) (states : List (String × MarketState)) (w : ℕ)
    (ms0 : MarketState)
    (hms : lookup_state states nm = some ms0)
    (hbase : ∀ p ∈ states, p.1 = nm → get_param g p.2 = get_param g ms0) :
    grid_points (1/10) = [4/5, 9/10, 1, 11/10, 6/5] ∧
    grid_points (1/20) =
      [4/5, 17/20, 9/10, 19/20, 1, 21/20, 11/10, 23/20, 6/5] ∧
    (risk_report_fn pf env g step nm states w).1.map Prod.fst =
      (grid_points step).map (fun m => m * get_param g ms0) ∧
    point_eval pf env nm g states w (1 * get_param g ms0) =
      (risk_report_fn pf env g step nm states w).2.1 := by
  have hsw := sweep_points_spec pf env nm g (get_param g ms0) w
    (grid_points step) states hbase
  refine ⟨?_, ?_, ?_, ?_⟩
  · rw [grid_points, if_pos (by norm_num),
      show ((2 : ℚ) / 5 / (1 / 10)).floor = 4 by
        rw [show (2 : ℚ) / 5 / (1 / 10) = 4 by norm_num, Rat.floor_def']
        simp,
      show ((4 : ℤ).toNat + 1) = 5 from rfl,
      show List.range 5 = [0, 1, 2, 3, 4] from rfl]
    norm_num
  · rw [grid_points, if_pos (by norm_num),
      show ((2 : ℚ) / 5 / (1 / 20)).floor = 8 by
        rw [show (2 : ℚ) / 5 / (1 / 20) = 8 by norm_num, Rat.floor_def']
        simp,
      show ((8 : ℤ).toNat + 1) = 9 from rfl,
      show List.range 9 = [0, 1, 2, 3, 4, 5, 6, 7, 8] from rfl]
    norm_num
  · simp only [risk_report_fn, hms, Option.getD_some, hsw, List.map_map]
    simp [Function.comp_def]
  · simp only [risk_report_fn]
    rw [point_eval, one_mul, update_factor_base states nm g _ hbase]

/-- C6: every constructed portfolio maintains a lower-triangular Cholesky
factor whose Gram product reproduces its correlation matrix; with no
correlations supplied the correlation matrix and the factor are the
identity; and when the correlation matrix is not symmetric positive
semi-definite, construction fails with the hard error
`SingularCorrelation` and no portfolio is produced. -/
theorem portfolio_cholesky_invariant (positions : List Position)
    (corrs : List (String × String × ℚ)) :
    (∀ pf, mk_portfolio positions corrs = .ok pf →
      (∀ i j : ℕ, i < j → pf.chol i j = 0) ∧
      (∀ i j : Fin (referenced positions).length,
        (∑ k : Fin (referenced positions).length,
          pf.chol i k * pf.chol j k) =
          corr_matrix (referenced positions) corrs i j)) ∧
    (corrs = [] →
      corr_matrix (referenced positions) corrs =
        idMat (referenced positions).length ∧
      mk_portfolio positions corrs =
        .ok ⟨positions, pad (referenced positions).length
          (idMat (referenced positions).length)⟩) ∧
    (¬ (SymmMat (referenced positions).length
          (corr_matrix (referenced positions) corrs) ∧
        PSD (referenced positions).length
          (corr_matrix (referenced positions) corrs)) →
      mk_portfolio positions corrs = .error .SingularCorrelation) := by
  refine ⟨?_, ?_, ?_⟩
  · intro pf hok
    unfold mk_portfolio at hok
    split at hok
    next => exact absurd hok (by simp)
    next L hchol =>
      obtain rfl : _ = pf := Except.ok.inj hok
      obtain ⟨hLT, hG⟩ := cholesky_spec _ _ L hchol
      constructor
      · intro i j hij
        by_cases hi : i < (referenced positions).length
        · by_cases hj : j < (referenced positions).length
          · simp only [pad, dif_pos hi, dif_pos hj]
            exact hLT ⟨i, hi⟩ ⟨j, hj⟩ hij
          · simp [pad, dif_pos hi, dif_neg hj]
        · simp [pad, dif_neg hi]
      · intro i j
        have hpad : ∀ a b : Fin (referenced positions).length,
            pad (referenced positions).length L a b = L a b := by
          intro a b
          simp [pad, a.isLt, b.isLt]
        calc (∑ k : Fin (referenced positions).length,
              pad (referenced positions).length L i k *
                pad (referenced positions).length L j k)
            = ∑ k : Fin (referenced positions).length, L i k * L j k :=
              Finset.sum_congr rfl fun k _ => by rw [hpad i k, hpad j k]
          _ = corr_matrix (referenced positions) corrs i j := hG i j
  · rintro rfl
    have hA : corr_matrix (referenced positions) [] =
        idMat (referenced positions).length := by
      funext i j
      simp [corr_matrix, corr_lookup, idMat]
    refine ⟨hA, ?_⟩
    simp only [mk_portfolio, hA, cholesky_idMat]
  · intro hnot
    unfold mk_portfolio
    cases hchol : cholesky (referenced positions).length
        (corr_matrix (referenced positions) corrs) with
    | none => simp
    | some L =>
        exact absurd (cholesky_symm_psd _ _ L hchol) hnot

/-- A concrete one-underlying European contract used by witnesses: payoff
is the underlying's terminal value, maturity 1. -/
def specEx : ContractSpec := ⟨.EuropeanSingle, 1, fun l => l.headD 0⟩

/-- A concrete position on risk factor `g`. -/
def posEx : Position := ⟨"p1", 2, ["g"], specEx⟩

/-- A second position identical to `posEx` except for its name. -/
def posEx2 : Position := ⟨"p2", 2, ["g"], specEx⟩

/-- A malformed position: American style with two underlyings. -/
def posBad : Position := ⟨"pb", 1, ["g", "g"], ⟨.AmericanSingle, 1,
  fun l => l.headD 0⟩⟩

/-- A concrete valuation environment: the fresh-seed configuration, time
grid 0 → 1 and unit discounting. -/
def envEx : ValEnv := ⟨cfgFresh, [0, 1], fun _ => 1⟩

/-- Concrete risk-factor states: `g` bound to the notebook market
state. -/
def statesEx : List (String × MarketState) := [("g", msEx)]

/-- Trivial 1×1 Cholesky factor. -/
def cholEx : ℕ → ℕ → ℚ := fun i j => if i = 0 ∧ j = 0 then 1 else 0

/-- A two-position portfolio of identical contracts. -/
def pfEx : Portfolio := ⟨[posEx, posEx2], cholEx⟩

/-- A portfolio containing one malformed position. -/
def pfBad : Portfolio := ⟨[posEx, posBad], cholEx⟩

/-- The path set simulated for factor `g` at base seed 0. -/
def psEx : PathSet := ⟨[[100, 489/5]]⟩

/-- The path map of one joint simulation of `statesEx`. -/
def pmEx : List (String × PathSet) := [("g", psEx)]

theorem referenced_pfEx : referenced pfEx.positions = ["g"] := rfl

theorem referenced_pfBad : referenced pfBad.positions = ["g"] := rfl

theorem corr_draws_cholEx (p k : ℕ) :
    corr_draws cholEx 1 0 0 p k = draw 0 p k := by
  rw [corr_draws, show List.range 1 = [0] from rfl, List.map_cons,
    List.map_nil, List.sum_cons, List.sum_nil,
    show cholEx 0 0 = 1 from rfl]
  rw [one_mul, add_zero, Nat.add_zero]

theorem gen_levels_seed0 :
    gen_levels msEx (fun k => draw 0 0 k) 0 100 0 [1] = [489/5] := by
  simp only [gen_levels]
  norm_num [level_step, msEx, draw_0_0_0]

theorem mk_pathset_z_ex :
    mk_pathset_z cfgFresh [0, 1] msEx (corr_draws cholEx 1 0 0) = psEx := by
  have hanti : antithetize cfgFresh (corr_draws cholEx 1 0 0) 0 =
      fun k => draw 0 0 k := by
    funext k
    simp [antithetize, cfgFresh, corr_draws_cholEx]
  simp only [mk_pathset_z, show cfgFresh.paths.toNat = 1 from rfl,
    show List.range 1 = [0] from rfl, List.map_cons, List.map_nil,
    gen_path, hanti, gen_levels_seed0,
    show msEx.initial_value = 100 from rfl, psEx]

theorem joint_simulation_ex :
    joint_simulation envEx cholEx ["g"] statesEx 0 = .ok (pmEx, 1) := by
  rw [joint_simulation, if_neg (by norm_num [envEx, cfgFresh])]
  have hlook : lookup_state statesEx "g" = some msEx := rfl
  simp only [show (["g"] : List String).enum = [(0, "g")] from rfl, mapE,
    hlook, show envEx.cfg = cfgFresh from rfl,
    show envEx.grid = ([0, 1] : List ℚ) from rfl,
    show effective_seed cfgFresh 0 = 0 from rfl,
    show (["g"] : List String).length = 1 from rfl, mk_pathset_z_ex,
    show next_world cfgFresh 0 = 1 from rfl, pmEx]

theorem joint_simulation_pfEx :
    joint_simulation envEx pfEx.chol (referenced pfEx.positions) statesEx 0 =
      .ok (pmEx, 1) := by
  rw [referenced_pfEx, show pfEx.chol = cholEx from rfl]
  exact joint_simulation_ex

theorem joint_simulation_pfBad :
    joint_simulation envEx pfBad.chol (referenced pfBad.positions) statesEx 0 =
      .ok (pmEx, 1) := by
  rw [referenced_pfBad, show pfBad.chol = cholEx from rfl]
  exact joint_simulation_ex

theorem position_value_posEx :
    position_value envEx.df pmEx posEx = .ok (489/5) := by
  rw [position_value, if_neg (by simp [posEx, specEx])]
  have hmapo : mapO (lookup_paths pmEx) posEx.underlyings = some [psEx] := rfl
  simp only [hmapo]
  norm_num [path_payoff, posEx, specEx, psEx, terminal_level, envEx,
    show List.range 1 = [0] from rfl]

theorem position_value_posEx2 :
    position_value envEx.df pmEx posEx2 = .ok (489/5) := by
  rw [position_value_congr envEx.df pmEx posEx2 posEx rfl rfl]
  exact position_value_posEx

theorem position_value_posBad :
    position_value envEx.df pmEx posBad = .error .InvalidContract := by
  rw [position_value, if_pos (by simp [posBad])]

theorem get_values_pfEx :
    get_values pfEx envEx statesEx 0 =
      .ok ([(posEx, 489/5), (posEx2, 489/5)], 1956/5, 1) := by
  simp only [get_values, joint_simulation_pfEx]
  simp only [show pfEx.positions = [posEx, posEx2] from rfl, mapE,
    position_value_posEx, position_value_posEx2, except_map_ok]
  simp only [List.map_cons, List.map_nil, List.sum_cons, List.sum_nil,
    show posEx.quantity = 2 from rfl, show posEx2.quantity = 2 from rfl]
  norm_num

theorem lookup_statesEx : lookup_state statesEx "g" = some msEx := rfl

theorem base_statesEx :
    ∀ p ∈ statesEx, p.1 = "g" →
      get_param Greek.Delta p.2 = get_param Greek.Delta msEx := by
  intro p hp _
  have : p = ("g", msEx) := by simpa [statesEx] using hp
  rw [this]

/-- A position on two named risk factors, used by the C6 witness. -/
def posW : Position := ⟨"w1", 1, ["x", "y"], specEx⟩

/-- The direction exhibiting indefiniteness of the witness correlation
matrix. -/
def xW : Fin 2 → ℚ := fun i => if i.1 = 0 then 1 else -1

/-- Witness for C2: at the concrete two-position portfolio the aggregate
call returns the quantity-weighted sum of per-position present values
from the one joint simulation. -/
theorem total_value_sums_positions_witness :
    get_values pfEx envEx statesEx 0 =
      .ok (pfEx.positions.map fun p =>
          (p, pv_or0 (position_value envEx.df pmEx p)),
        (pfEx.positions.map fun p =>
          p.quantity * pv_or0 (position_value envEx.df pmEx p)).sum, 1) :=
  total_value_sums_positions pfEx envEx statesEx 0 pmEx 1
    joint_simulation_pfEx
    (by
      intro p hp
      rcases List.mem_cons.mp hp with rfl | hp2
      · exact ⟨489/5, position_value_posEx⟩
      · rcases List.mem_cons.mp hp2 with rfl | hp3
        · exact ⟨489/5, position_value_posEx2⟩
        · cases hp3)

/-- Witness for C5: the two identical positions of the concrete portfolio
receive equal values in one revaluation. -/
theorem equal_positions_equal_values_witness :
    (489/5 : ℚ) = 489/5 ∧
      posEx.quantity * (489/5 : ℚ) = posEx2.quantity * (489/5 : ℚ) :=
  equal_positions_equal_values pfEx envEx statesEx 0
    [(posEx, 489/5), (posEx2, 489/5)] (1956/5) 1 get_values_pfEx
    posEx posEx2 (489/5) (489/5)
    (List.mem_cons_self _ _)
    (List.mem_cons_of_mem _ (List.mem_cons_self _ _))
    rfl rfl rfl

/-- Witness for C9: the malformed position aborts the whole aggregate
call with its error. -/
theorem position_failure_aborts_witness :
    get_values pfBad envEx statesEx 0 = .error .InvalidContract :=
  position_failure_aborts pfBad envEx statesEx 0 pmEx 1 posBad
    .InvalidContract joint_simulation_pfBad
    (List.mem_cons_of_mem _ (List.mem_cons_self _ _))
    position_value_posBad
    (by
      intro q hq hqp
      rcases List.mem_cons.mp hq with rfl | hq2
      · exact ⟨489/5, position_value_posEx⟩
      · rcases List.mem_cons.mp hq2 with rfl | hq3
        · exact absurd rfl hqp
        · cases hq3)

/-- Witness for C3 at factor `g` of the concrete states, Delta parameter,
grid [0.8, 1, 1.2]. -/
theorem risk_report_restore_and_independence_witness :
    (sweep_points pfEx envEx "g" Greek.Delta (get_param Greek.Delta msEx) 0
      [4/5, 1, 6/5] statesEx).1 =
      [(4 : ℚ)/5, 1, 6/5].map (fun m => (m * get_param Greek.Delta msEx,
        point_eval pfEx envEx "g" Greek.Delta statesEx 0
          (m * get_param Greek.Delta msEx))) ∧
    (sweep_points pfEx envEx "g" Greek.Delta (get_param Greek.Delta msEx) 0
      [4/5, 1, 6/5] statesEx).2 = statesEx ∧
    (risk_report_fn pfEx envEx Greek.Delta (1/10) "g" statesEx 0).1 =
      (grid_points (1/10)).map (fun m => (m * get_param Greek.Delta msEx,
        point_eval pfEx envEx "g" Greek.Delta statesEx 0
          (m * get_param Greek.Delta msEx))) ∧
    (risk_report_fn pfEx envEx Greek.Delta (1/10) "g" statesEx 0).2.1 =
      total_value pfEx envEx statesEx 0 ∧
    (risk_report_fn pfEx envEx Greek.Delta (1/10) "g" statesEx 0).2.2 =
      statesEx :=
  risk_report_restore_and_independence pfEx envEx Greek.Delta (1/10) "g"
    statesEx 0 msEx [4/5, 1, 6/5] lookup_statesEx base_statesEx

/-- Witness for C10 at factor `g`, Delta parameter, default step. -/
theorem grid_default_and_center_witness :
    grid_points (1/10) = [4/5, 9/10, 1, 11/10, 6/5] ∧
    grid_points (1/20) =
      [4/5, 17/20, 9/10, 19/20, 1, 21/20, 11/10, 23/20, 6/5] ∧
    (risk_report_fn pfEx envEx Greek.Delta (1/10) "g" statesEx 0).1.map
        Prod.fst =
      (grid_points (1/10)).map (fun m => m * get_param Greek.Delta msEx) ∧
    point_eval pfEx envEx "g" Greek.Delta statesEx 0
        (1 * get_param Greek.Delta msEx) =
      (risk_report_fn pfEx envEx Greek.Delta (1/10) "g" statesEx 0).2.1 :=
  grid_default_and_center pfEx envEx Greek.Delta (1/10) "g" statesEx 0 msEx
    lookup_statesEx base_statesEx

/-- Witness for C6: with no correlations, construction of the concrete
one-factor portfolio succeeds with the identity factorization; with the
indefinite correlation 2 between `x` and `y`, construction fails with
`SingularCorrelation`. -/
theorem portfolio_cholesky_invariant_witness :
    (corr_matrix (referenced [posEx]) [] =
        idMat (referenced [posEx]).length ∧
      mk_portfolio [posEx] [] = .ok ⟨[posEx],
        pad (referenced [posEx]).length
          (idMat (referenced [posEx]).length)⟩) ∧
    mk_portfolio [posW] [("x", "y", 2)] = .error .SingularCorrelation := by
  constructor
  · exact (portfolio_cholesky_invariant [posEx] []).2.1 rfl
  · refine (portfolio_cholesky_invariant [posW] [("x", "y", 2)]).2.2 ?_
    rintro ⟨-, hpsd⟩
    have h : (0 : ℚ) ≤ ∑ i : Fin 2, ∑ j : Fin 2,
        xW i * corr_matrix (referenced [posW]) [("x", "y", 2)] i j * xW j :=
      hpsd xW
    simp only [Fin.sum_univ_two] at h
    rw [show corr_matrix (referenced [posW]) [("x", "y", 2)]
        (0 : Fin 2) (0 : Fin 2) = 1 from rfl,
      show corr_matrix (referenced [posW]) [("x", "y", 2)]
        (0 : Fin 2) (1 : Fin 2) = 2 from rfl,
      show corr_matrix (referenced [posW]) [("x", "y", 2)]
        (1 : Fin 2) (0 : Fin 2) = 2 from rfl,
      show corr_matrix (referenced [posW]) [("x", "y", 2)]
        (1 : Fin 2) (1 : Fin 2) = 1 from rfl,
      show xW 0 = 1 from rfl, show xW 1 = -1 from rfl] at h
    norm_num at h

end Dx
